import Mathlib

/-!
Verification of the typing-state engine of `ttype` (`src/main.rs`).

The engine is shallowly embedded as follows.

* The target text (`String`, indexed byte-wise by `str_index`) becomes
  `List Char`; the program assumes single-byte characters, so byte indexing
  coincides with character indexing.
* `start : Option<Instant>` is abstracted to the Bool `started` (whether the
  clock has been started); real timestamps live outside the embedding, so
  `get_wpm` takes the elapsed seconds as an explicit rational parameter.
* `HashSet<usize>` becomes `Nat → Bool`, and `HashMap<usize, V>` becomes
  `Nat → Option V`; `updF` models `insert` (with `some v` / `true`) and
  `remove` (with `none` / `false`).
* The out-of-bounds panic of `str_index` is modelled by `Option`: the
  keystroke handlers return `none` exactly when the Rust code would panic.
-/

namespace Ttype

/-- Pointwise update of an overlay map, modelling `HashMap::insert`,
`HashMap::remove`, `HashSet::insert` and `HashSet::remove`. -/
def updF {α : Type} (f : Nat → α) (k : Nat) (v : α) : Nat → α :=
  fun x => if x = k then v else f x

/-- Model of `fn str_index(string: &str, i: usize) -> char` (line 15-17):
`(string.as_bytes()[i]) as char`.
`none` models the index-out-of-bounds panic of `string.as_bytes()[i]`. -/
def str_index (string : List Char) (i : Nat) : Option Char :=
  string.get? i

/-- Model of `struct State` from `src/main.rs` (lines 40-50). -/
structure State where
  started : Bool
  text : List Char
  i : Nat
  mismatches : Nat → Bool
  extensions : Nat → Option (List Char)
  skips : Nat → Option Nat

/-- Model of `State::new(text)`: cursor 0, clock unset, all three overlays empty. -/
def State.new (text : List Char) : State :=
  { started := false
    text := text
    i := 0
    mismatches := fun _ => false
    extensions := fun _ => none
    skips := fun _ => none }

/-- Fuel-indexed version of the skip-boundary scan
`while str_index(&self.text, next_word_i) != ' ' && next_word_i < self.text.len() - 1
   { next_word_i += 1; }`
(the loop of `handle_char`, lines 80-82). The fuel is only a structural
termination device; `findBoundary` supplies enough of it. -/
def findBoundaryGo (text : List Char) : Nat → Nat → Nat
  | 0, j => j
  | fuel + 1, j =>
    if h : j < text.length then
      if text.get ⟨j, h⟩ = ' ' ∨ text.length - 1 ≤ j then j
      else findBoundaryGo text fuel (j + 1)
    else j

/-- The index at which the skip-boundary scan of `handle_char` stops when
started at `j`: the first index `≥ j` holding a space, or `text.length - 1`
if there is none. -/
def findBoundary (text : List Char) (j : Nat) : Nat :=
  findBoundaryGo text (text.length - j) j

/-- Model of `State::handle_char` (lines 64-105).  Returns `none` exactly when the
Rust code panics (cursor out of bounds in `str_index`).  The Rust code first
runs `if self.start.is_none() { self.start = Some(Instant::now()); }`; on the
Bool abstraction (which drops the timestamp) this is an unconditional set. -/
def handle_char (s0 : State) (c : Char) : Option State :=
  let s : State := { s0 with started := true }
  match str_index s.text s.i with
  | none => none
  | some target_c =>
    if c = ' ' ∧ target_c ≠ ' ' then
      -- skippy: record a skip keyed by the boundary and jump one past it
      let next_word_i := findBoundary s.text s.i
      some { s with skips := updF s.skips next_word_i (some s.i)
                    i := next_word_i + 1 }
    else
      match s.extensions s.i with
      | some extension =>
          -- currently in an extended word: append the new character
          some { s with extensions := updF s.extensions s.i (some (extension ++ [c])) }
      | none =>
          if target_c = c then
            -- match and increment index
            some { s with i := s.i + 1 }
          else if target_c = ' ' then
            -- mismatch and start extension
            some { s with extensions := updF s.extensions s.i (some [c]) }
          else
            -- mismatch and increment index
            some { s with mismatches := updF s.mismatches s.i true
                          i := s.i + 1 }

/-- Model of `State::handle_backspace` (lines 107-137).  Returns `none` exactly when
the Rust code panics (cursor - 1 out of bounds in `str_index`). -/
def handle_backspace (s : State) : Option State :=
  match s.extensions s.i with
  | some extension =>
      -- pop a char from the extension; remove the entry if now empty
      let popped := extension.dropLast
      if popped.isEmpty then
        some { s with extensions := updF s.extensions s.i none }
      else
        some { s with extensions := updF s.extensions s.i (some popped) }
  | none =>
    if s.i = 0 then some s
    else
      match str_index s.text (s.i - 1) with
      | none => none
      | some prev_c =>
        if prev_c = ' ' then
          match s.skips (s.i - 1) with
          | some start =>
              -- undo the skip: jump back to its stored start, drop the entry
              some { s with skips := updF s.skips (s.i - 1) none
                            i := start }
          | none => some s
        else
          some { s with i := s.i - 1
                        mismatches := updF s.mismatches (s.i - 1) false }

/-- Model of `State::should_exit` (lines 139-141): `self.i >= self.text.len()`. -/
def should_exit (s : State) : Bool :=
  s.text.length ≤ s.i

/-- Word counter underlying `split_whitespace().count()`: counts maximal
runs of non-whitespace characters; `inWord` records whether the previous
character was part of a word. -/
def wordCountGo : Bool → List Char → Nat
  | _, [] => 0
  | inWord, c :: rest =>
    if c.isWhitespace then wordCountGo false rest
    else (if inWord then 0 else 1) + wordCountGo true rest

/-- Model of `self.text[0..self.i].split_whitespace().count()` (line 145). -/
def wordCount (l : List Char) : Nat :=
  wordCountGo false l

/-- Model of `State::get_wpm` (lines 143-149).  The elapsed wall-clock seconds
`Instant::now().duration_since(start).as_secs_f64()` are outside the
embedding and passed as the explicit parameter `elapsed`. -/
def get_wpm (s : State) (elapsed : ℚ) : Option ℚ :=
  if s.started then
    some ((wordCount (s.text.take s.i) : ℚ) / elapsed * 60)
  else
    none

/-- A keystroke reaching the engine: a printable character or backspace. -/
inductive Op where
  | chr : Char → Op
  | bksp : Op

/-- Dispatch of one keystroke, as in the event loop (lines 229-240). -/
def applyOp (s : State) : Op → Option State
  | Op.chr c => handle_char s c
  | Op.bksp => handle_backspace s

/-- Run a sequence of keystrokes. -/
def runOps (s : State) : List Op → Option State
  | [] => some s
  | op :: rest => (applyOp s op).bind (fun s' => runOps s' rest)

/-- Run a sequence of printable characters through `handle_char`. -/
def runChars (s : State) : List Char → Option State
  | [] => some s
  | c :: rest => (handle_char s c).bind (fun s' => runChars s' rest)

/-- Engine states reachable in the program: starting from `State.new t` and
applying keystrokes, where `handle_char` is only invoked while the cursor is
in range (the main loop stops as soon as `should_exit` holds, so the program
never feeds a character to a completed engine). -/
inductive Reachable (t : List Char) : State → Prop where
  | init : Reachable t (State.new t)
  | chr {s s' : State} {c : Char} :
      Reachable t s → s.i < t.length → handle_char s c = some s' → Reachable t s'
  | bksp {s s' : State} :
      Reachable t s → handle_backspace s = some s' → Reachable t s'

/-- The state invariant maintained by the engine. -/
structure Inv (t : List Char) (s : State) : Prop where
  text_eq : s.text = t
  i_le : s.i ≤ t.length
  ext_inv : ∀ k v, s.extensions k = some v →
    k = s.i ∧ v ≠ [] ∧ s.text.get? k = some ' '
  mism_lt : ∀ k, s.mismatches k = true → k < s.i
  skips_inv : ∀ e st, s.skips e = some st →
    st ≤ e ∧ e < t.length ∧
    (∀ k, st ≤ k → k < e → s.text.get? k ≠ some ' ') ∧
    (s.text.get? e = some ' ' →
      e < s.i ∧ ∀ k, st ≤ k → k ≤ e → s.mismatches k = false)

/-- Number of recorded skip entries (all keys of interest lie below the text
length). -/
def skipCount (s : State) : Nat :=
  (List.range s.text.length).countP (fun k => (s.skips k).isSome)

/-- Number of recorded mismatch entries (all keys of interest lie below the
text length). -/
def mismatchCount (s : State) : Nat :=
  (List.range s.text.length).countP (fun k => s.mismatches k)

/-! ### Basic lemmas about the overlay updates -/

theorem updF_self {α : Type} (f : Nat → α) (k : Nat) (v : α) : updF f k v k = v := by
  simp [updF]

theorem updF_ne {α : Type} (f : Nat → α) {k x : Nat} (v : α) (h : x ≠ k) :
    updF f k v x = f x := by
  simp [updF, h]

theorem updF_eq_self {α : Type} (f : Nat → α) {k : Nat} {v : α} (h : f k = v) :
    updF f k v = f := by
  funext x
  by_cases hx : x = k
  · subst hx; simp [updF, h]
  · simp [updF, hx]

theorem updF_updF {α : Type} (f : Nat → α) (k : Nat) (v w : α) :
    updF (updF f k v) k w = updF f k w := by
  funext x
  by_cases hx : x = k <;> simp [updF, hx]

/-! ### Properties of the skip-boundary scan -/

theorem findBoundaryGo_ge (t : List Char) : ∀ fuel j, j ≤ findBoundaryGo t fuel j := by
  intro fuel
  induction fuel with
  | zero => intro j; simp [findBoundaryGo]
  | succ n ih =>
    intro j
    simp only [findBoundaryGo]
    by_cases hlen : j < t.length
    · rw [dif_pos hlen]
      by_cases hstop : t.get ⟨j, hlen⟩ = ' ' ∨ t.length - 1 ≤ j
      · rw [if_pos hstop]
      · rw [if_neg hstop]
        exact le_trans (Nat.le_succ j) (ih (j + 1))
    · rw [dif_neg hlen]

theorem findBoundaryGo_lt (t : List Char) :
    ∀ fuel j, j < t.length → findBoundaryGo t fuel j < t.length := by
  intro fuel
  induction fuel with
  | zero => intro j hj; simpa [findBoundaryGo] using hj
  | succ n ih =>
    intro j hj
    simp only [findBoundaryGo]
    rw [dif_pos hj]
    by_cases hstop : t.get ⟨j, hj⟩ = ' ' ∨ t.length - 1 ≤ j
    · rw [if_pos hstop]; exact hj
    · rw [if_neg hstop]
      push_neg at hstop
      exact ih (j + 1) (by omega)

theorem findBoundaryGo_no_space (t : List Char) :
    ∀ fuel j k, j ≤ k → k < findBoundaryGo t fuel j → t.get? k ≠ some ' ' := by
  intro fuel
  induction fuel with
  | zero => intro j k hjk hk; simp [findBoundaryGo] at hk; omega
  | succ n ih =>
    intro j k hjk hk
    simp only [findBoundaryGo] at hk
    by_cases hlen : j < t.length
    · rw [dif_pos hlen] at hk
      by_cases hstop : t.get ⟨j, hlen⟩ = ' ' ∨ t.length - 1 ≤ j
      · rw [if_pos hstop] at hk; omega
      · rw [if_neg hstop] at hk
        push_neg at hstop
        rcases Nat.eq_or_lt_of_le hjk with heq | hlt
        · subst heq
          rw [List.get?_eq_get hlen]
          intro hcontra
          exact hstop.1 (Option.some_injective _ hcontra)
        · exact ih (j + 1) k hlt hk
    · rw [dif_neg hlen] at hk; omega

theorem findBoundaryGo_le_space (t : List Char) :
    ∀ fuel j k, j ≤ k → k < t.length → t.get? k = some ' ' →
      findBoundaryGo t fuel j ≤ k := by
  intro fuel
  induction fuel with
  | zero => intro j k hjk _ _; simpa [findBoundaryGo] using hjk
  | succ n ih =>
    intro j k hjk hklen hsp
    simp only [findBoundaryGo]
    by_cases hlen : j < t.length
    · rw [dif_pos hlen]
      by_cases hstop : t.get ⟨j, hlen⟩ = ' ' ∨ t.length - 1 ≤ j
      · rw [if_pos hstop]; exact hjk
      · rw [if_neg hstop]
        push_neg at hstop
        have hne : j ≠ k := by
          intro heq
          subst heq
          rw [List.get?_eq_get hlen] at hsp
          exact hstop.1 (Option.some_injective _ hsp)
        exact ih (j + 1) k (by omega) hklen hsp
    · rw [dif_neg hlen]; exact hjk

theorem findBoundaryGo_space_or_last (t : List Char) :
    ∀ fuel j, j < t.length → t.length - j ≤ fuel + 1 →
      t.get? (findBoundaryGo t fuel j) = some ' ' ∨ findBoundaryGo t fuel j = t.length - 1 := by
  intro fuel
  induction fuel with
  | zero =>
    intro j hj hfuel
    right
    simp only [findBoundaryGo]
    omega
  | succ n ih =>
    intro j hj hfuel
    simp only [findBoundaryGo]
    rw [dif_pos hj]
    by_cases hstop : t.get ⟨j, hj⟩ = ' ' ∨ t.length - 1 ≤ j
    · rw [if_pos hstop]
      rcases hstop with hsp | hlast
      · left; rw [List.get?_eq_get hj, hsp]
      · right; omega
    · rw [if_neg hstop]
      push_neg at hstop
      exact ih (j + 1) (by omega) (by omega)

theorem findBoundary_ge (t : List Char) (j : Nat) : j ≤ findBoundary t j :=
  findBoundaryGo_ge t _ j

theorem findBoundary_lt (t : List Char) {j : Nat} (h : j < t.length) :
    findBoundary t j < t.length :=
  findBoundaryGo_lt t _ j h

theorem findBoundary_no_space (t : List Char) {j k : Nat} (hjk : j ≤ k)
    (hk : k < findBoundary t j) : t.get? k ≠ some ' ' :=
  findBoundaryGo_no_space t _ j k hjk hk

theorem findBoundary_le_space (t : List Char) {j k : Nat} (hjk : j ≤ k)
    (hklen : k < t.length) (hsp : t.get? k = some ' ') : findBoundary t j ≤ k :=
  findBoundaryGo_le_space t _ j k hjk hklen hsp

theorem findBoundary_space_or_last (t : List Char) {j : Nat} (h : j < t.length) :
    t.get? (findBoundary t j) = some ' ' ∨ findBoundary t j = t.length - 1 :=
  findBoundaryGo_space_or_last t _ j h (by omega)

theorem findBoundary_space (t : List Char) {j k : Nat} (hj : j < t.length)
    (hjk : j ≤ k) (hklen : k < t.length) (hsp : t.get? k = some ' ') :
    t.get? (findBoundary t j) = some ' ' := by
  rcases findBoundary_space_or_last t hj with h | h
  · exact h
  · have h1 : findBoundary t j ≤ k := findBoundary_le_space t hjk hklen hsp
    have h2 : k = findBoundary t j := by omega
    rw [← h2, hsp]

theorem findBoundary_no_space_eq (t : List Char) {j : Nat} (hj : j < t.length)
    (hns : ∀ k, k < t.length → j ≤ k → t.get? k ≠ some ' ') :
    findBoundary t j = t.length - 1 := by
  rcases findBoundary_space_or_last t hj with h | h
  · exact absurd h (hns _ (findBoundary_lt t hj) (findBoundary_ge t j))
  · exact h

/-! ### Branch equations for the keystroke handlers -/

theorem handle_char_panic {s : State} {c : Char}
    (h : str_index s.text s.i = none) : handle_char s c = none := by
  simp only [handle_char, h]

theorem handle_char_skip {s : State} {c tc : Char}
    (htc : str_index s.text s.i = some tc) (hc : c = ' ') (hne : tc ≠ ' ') :
    handle_char s c =
      some { s with started := true
                    i := findBoundary s.text s.i + 1
                    skips := updF s.skips (findBoundary s.text s.i) (some s.i) } := by
  subst hc
  simp [handle_char, htc, hne]

theorem handle_char_extend {s : State} {c tc : Char} {v : List Char}
    (htc : str_index s.text s.i = some tc) (hns : ¬(c = ' ' ∧ tc ≠ ' '))
    (hext : s.extensions s.i = some v) :
    handle_char s c =
      some { s with started := true
                    extensions := updF s.extensions s.i (some (v ++ [c])) } := by
  simp only [handle_char, htc]
  rw [if_neg hns]
  simp only [hext]

theorem handle_char_match {s : State} {c tc : Char}
    (htc : str_index s.text s.i = some tc) (hns : ¬(c = ' ' ∧ tc ≠ ' '))
    (hext : s.extensions s.i = none) (heq : tc = c) :
    handle_char s c = some { s with started := true, i := s.i + 1 } := by
  simp only [handle_char, htc]
  rw [if_neg hns]
  simp only [hext]
  rw [if_pos heq]

theorem handle_char_extstart {s : State} {c tc : Char}
    (htc : str_index s.text s.i = some tc) (hns : ¬(c = ' ' ∧ tc ≠ ' '))
    (hext : s.extensions s.i = none) (hne : tc ≠ c) (hsp : tc = ' ') :
    handle_char s c =
      some { s with started := true
                    extensions := updF s.extensions s.i (some [c]) } := by
  simp only [handle_char, htc]
  rw [if_neg hns]
  simp only [hext]
  rw [if_neg hne, if_pos hsp]

theorem handle_char_mismatch {s : State} {c tc : Char}
    (htc : str_index s.text s.i = some tc) (hns : ¬(c = ' ' ∧ tc ≠ ' '))
    (hext : s.extensions s.i = none) (hne : tc ≠ c) (hsp : tc ≠ ' ') :
    handle_char s c =
      some { s with started := true
                    mismatches := updF s.mismatches s.i true
                    i := s.i + 1 } := by
  simp only [handle_char, htc]
  rw [if_neg hns]
  simp only [hext]
  rw [if_neg hne, if_neg hsp]

theorem handle_backspace_pop_drop {s : State} {v : List Char}
    (hext : s.extensions s.i = some v) (hdrop : v.dropLast = []) :
    handle_backspace s = some { s with extensions := updF s.extensions s.i none } := by
  simp [handle_backspace, hext, hdrop]

theorem handle_backspace_pop_keep {s : State} {v : List Char}
    (hext : s.extensions s.i = some v) (hdrop : v.dropLast ≠ []) :
    handle_backspace s =
      some { s with extensions := updF s.extensions s.i (some v.dropLast) } := by
  simp [handle_backspace, hext, hdrop]

theorem handle_backspace_zero {s : State}
    (hext : s.extensions s.i = none) (h0 : s.i = 0) :
    handle_backspace s = some s := by
  simp only [handle_backspace, hext]
  simp [h0]

theorem handle_backspace_panic {s : State}
    (hext : s.extensions s.i = none) (h0 : s.i ≠ 0)
    (h : str_index s.text (s.i - 1) = none) :
    handle_backspace s = none := by
  simp only [handle_backspace, hext]
  simp [h0, h]

theorem handle_backspace_skipundo {s : State} {st : Nat}
    (hext : s.extensions s.i = none) (h0 : s.i ≠ 0)
    (hp : str_index s.text (s.i - 1) = some ' ')
    (hsk : s.skips (s.i - 1) = some st) :
    handle_backspace s =
      some { s with skips := updF s.skips (s.i - 1) none
                    i := st } := by
  simp only [handle_backspace, hext]
  simp [h0, hp, hsk]

theorem handle_backspace_noskip {s : State}
    (hext : s.extensions s.i = none) (h0 : s.i ≠ 0)
    (hp : str_index s.text (s.i - 1) = some ' ')
    (hsk : s.skips (s.i - 1) = none) :
    handle_backspace s = some s := by
  simp only [handle_backspace, hext]
  simp [h0, hp, hsk]

theorem handle_backspace_dec {s : State} {pc : Char}
    (hext : s.extensions s.i = none) (h0 : s.i ≠ 0)
    (hp : str_index s.text (s.i - 1) = some pc) (hpne : pc ≠ ' ') :
    handle_backspace s =
      some { s with i := s.i - 1
                    mismatches := updF s.mismatches (s.i - 1) false } := by
  simp only [handle_backspace, hext]
  simp [h0, hp, hpne]

/-! ### The invariant holds in every reachable state -/

theorem inv_init (t : List Char) : Inv t (State.new t) := by
  refine ⟨rfl, Nat.zero_le _, ?_, ?_, ?_⟩
  · intro k v h; simp [State.new] at h
  · intro k h; simp [State.new] at h
  · intro e st h; simp [State.new] at h

theorem inv_char {t : List Char} {s s' : State} {c : Char}
    (hInv : Inv t s) (hlt : s.i < t.length) (h : handle_char s c = some s') :
    Inv t s' := by
  have htx : s.text = t := hInv.text_eq
  have hlen : s.i < s.text.length := by rw [htx]; exact hlt
  have htc : str_index s.text s.i = some (s.text.get ⟨s.i, hlen⟩) :=
    List.get?_eq_get hlen
  set tc := s.text.get ⟨s.i, hlen⟩ with htcdef
  have htc' : s.text.get? s.i = some tc := htc
  by_cases hskip : c = ' ' ∧ tc ≠ ' '
  · -- skip branch
    rw [handle_char_skip htc hskip.1 hskip.2] at h
    injection h with h
    subst h
    have hBge : s.i ≤ findBoundary s.text s.i := findBoundary_ge s.text s.i
    have hBlt : findBoundary s.text s.i < s.text.length := findBoundary_lt s.text hlen
    refine ⟨htx, ?_, ?_, ?_, ?_⟩ <;> dsimp only
    · show findBoundary s.text s.i + 1 ≤ t.length
      rw [← htx]; omega
    · intro k v hk
      obtain ⟨hk1, _, hk3⟩ := hInv.ext_inv k v hk
      subst hk1
      rw [htc'] at hk3
      exact absurd (Option.some_injective _ hk3) hskip.2
    · intro k hk
      have := hInv.mism_lt k hk
      show k < findBoundary s.text s.i + 1
      omega
    · intro e st hst
      by_cases heB : e = findBoundary s.text s.i
      · subst heB
        rw [updF_self] at hst
        injection hst with hst
        subst hst
        refine ⟨hBge, by rw [← htx]; exact hBlt, ?_, ?_⟩
        · intro k hk1 hk2
          exact findBoundary_no_space s.text hk1 hk2
        · intro _
          refine ⟨by omega, ?_⟩
          intro k hk1 hk2
          show s.mismatches k = false
          cases hmk : s.mismatches k
          · rfl
          · exact absurd (hInv.mism_lt k hmk) (by omega)
      · rw [updF_ne _ _ heB] at hst
        obtain ⟨g1, g2, g3, g4⟩ := hInv.skips_inv e st hst
        refine ⟨g1, g2, g3, ?_⟩
        intro hsp
        obtain ⟨g5, g6⟩ := g4 hsp
        exact ⟨by omega, g6⟩
  · -- not the skip branch
    cases hext : s.extensions s.i with
    | some v =>
      rw [handle_char_extend htc hskip hext] at h
      injection h with h
      subst h
      refine ⟨htx, hInv.i_le, ?_, hInv.mism_lt, hInv.skips_inv⟩
      dsimp only
      intro k w hk
      by_cases hki : k = s.i
      · subst hki
        rw [updF_self] at hk
        injection hk with hk
        subst hk
        refine ⟨rfl, by simp, (hInv.ext_inv s.i v hext).2.2⟩
      · rw [updF_ne _ _ hki] at hk
        exact absurd (hInv.ext_inv k w hk).1 hki
    | none =>
      by_cases heq : tc = c
      · rw [handle_char_match htc hskip hext heq] at h
        injection h with h
        subst h
        refine ⟨htx, by show s.i + 1 ≤ t.length; omega, ?_, ?_, ?_⟩ <;> dsimp only
        · intro k v hk
          obtain ⟨hk1, _, _⟩ := hInv.ext_inv k v hk
          subst hk1
          rw [hext] at hk
          cases hk
        · intro k hk
          have := hInv.mism_lt k hk
          show k < s.i + 1
          omega
        · intro e st hst
          obtain ⟨g1, g2, g3, g4⟩ := hInv.skips_inv e st hst
          refine ⟨g1, g2, g3, ?_⟩
          intro hsp
          obtain ⟨g5, g6⟩ := g4 hsp
          exact ⟨by omega, g6⟩
      · by_cases hsp : tc = ' '
        · rw [handle_char_extstart htc hskip hext heq hsp] at h
          injection h with h
          subst h
          refine ⟨htx, hInv.i_le, ?_, hInv.mism_lt, hInv.skips_inv⟩
          dsimp only
          intro k w hk
          by_cases hki : k = s.i
          · subst hki
            rw [updF_self] at hk
            injection hk with hk
            subst hk
            refine ⟨rfl, by simp, by rw [htc', hsp]⟩
          · rw [updF_ne _ _ hki] at hk
            exact absurd (hInv.ext_inv k w hk).1 hki
        · rw [handle_char_mismatch htc hskip hext heq hsp] at h
          injection h with h
          subst h
          refine ⟨htx, by show s.i + 1 ≤ t.length; omega, ?_, ?_, ?_⟩ <;> dsimp only
          · intro k v hk
            obtain ⟨hk1, _, _⟩ := hInv.ext_inv k v hk
            subst hk1
            rw [hext] at hk
            cases hk
          · intro k hk
            show k < s.i + 1
            by_cases hki : k = s.i
            · omega
            · rw [updF_ne _ _ hki] at hk
              have := hInv.mism_lt k hk
              omega
          · intro e st hst
            obtain ⟨g1, g2, g3, g4⟩ := hInv.skips_inv e st hst
            refine ⟨g1, g2, g3, ?_⟩
            intro hsp'
            obtain ⟨g5, g6⟩ := g4 hsp'
            refine ⟨by omega, ?_⟩
            intro k hk1 hk2
            show updF s.mismatches s.i true k = false
            have hki : k ≠ s.i := by omega
            rw [updF_ne _ _ hki]
            exact g6 k hk1 hk2

theorem inv_bksp {t : List Char} {s s' : State}
    (hInv : Inv t s) (h : handle_backspace s = some s') : Inv t s' := by
  have htx : s.text = t := hInv.text_eq
  cases hext : s.extensions s.i with
  | some v =>
    by_cases hdrop : v.dropLast = []
    · rw [handle_backspace_pop_drop hext hdrop] at h
      injection h with h
      subst h
      refine ⟨htx, hInv.i_le, ?_, hInv.mism_lt, hInv.skips_inv⟩
      dsimp only
      intro k w hk
      by_cases hki : k = s.i
      · subst hki
        rw [updF_self] at hk
        cases hk
      · rw [updF_ne _ _ hki] at hk
        exact absurd (hInv.ext_inv k w hk).1 hki
    · rw [handle_backspace_pop_keep hext hdrop] at h
      injection h with h
      subst h
      refine ⟨htx, hInv.i_le, ?_, hInv.mism_lt, hInv.skips_inv⟩
      dsimp only
      intro k w hk
      by_cases hki : k = s.i
      · subst hki
        rw [updF_self] at hk
        injection hk with hk
        subst hk
        exact ⟨rfl, hdrop, (hInv.ext_inv s.i v hext).2.2⟩
      · rw [updF_ne _ _ hki] at hk
        exact absurd (hInv.ext_inv k w hk).1 hki
  | none =>
    by_cases h0 : s.i = 0
    · rw [handle_backspace_zero hext h0] at h
      injection h with h
      subst h
      exact hInv
    · have hlen : s.i - 1 < s.text.length := by
        have := hInv.i_le
        rw [htx]
        omega
      have hp : str_index s.text (s.i - 1) = some (s.text.get ⟨s.i - 1, hlen⟩) :=
        List.get?_eq_get hlen
      set pc := s.text.get ⟨s.i - 1, hlen⟩ with hpcdef
      have hp' : s.text.get? (s.i - 1) = some pc := hp
      by_cases hpc : pc = ' '
      · cases hsk : s.skips (s.i - 1) with
        | some st =>
          rw [handle_backspace_skipundo hext h0 (by rw [hp, hpc]) hsk] at h
          injection h with h
          subst h
          obtain ⟨hs1, hs2, hs3, hs4⟩ := hInv.skips_inv (s.i - 1) st hsk
          obtain ⟨hs5, hs6⟩ := hs4 (by rw [hp', hpc])
          refine ⟨htx, ?_, ?_, ?_, ?_⟩ <;> dsimp only
          · show st ≤ t.length
            have := hInv.i_le
            omega
          · intro k w hk
            obtain ⟨hk1, _, _⟩ := hInv.ext_inv k w hk
            subst hk1
            rw [hext] at hk
            cases hk
          · intro k hk
            have hki := hInv.mism_lt k hk
            show k < st
            by_contra hc
            push_neg at hc
            have : s.mismatches k = false := hs6 k hc (by omega)
            rw [this] at hk
            cases hk
          · intro e st' he
            by_cases heB : e = s.i - 1
            · subst heB
              rw [updF_self] at he
              cases he
            · rw [updF_ne _ _ heB] at he
              obtain ⟨g1, g2, g3, g4⟩ := hInv.skips_inv e st' he
              refine ⟨g1, g2, g3, ?_⟩
              intro hsp'
              obtain ⟨g5, g6⟩ := g4 hsp'
              refine ⟨?_, g6⟩
              show e < st
              by_contra hc
              push_neg at hc
              have he2 : e < s.i - 1 := by omega
              exact hs3 e hc he2 hsp'
        | none =>
          rw [handle_backspace_noskip hext h0 (by rw [hp, hpc]) hsk] at h
          injection h with h
          subst h
          exact hInv
      · rw [handle_backspace_dec hext h0 hp hpc] at h
        injection h with h
        subst h
        refine ⟨htx, ?_, ?_, ?_, ?_⟩ <;> dsimp only
        · show s.i - 1 ≤ t.length
          have := hInv.i_le
          omega
        · intro k w hk
          obtain ⟨hk1, _, _⟩ := hInv.ext_inv k w hk
          subst hk1
          rw [hext] at hk
          cases hk
        · intro k hk
          show k < s.i - 1
          by_cases hki : k = s.i - 1
          · subst hki
            rw [updF_self] at hk
            cases hk
          · rw [updF_ne _ _ hki] at hk
            have := hInv.mism_lt k hk
            omega
        · intro e st he
          obtain ⟨g1, g2, g3, g4⟩ := hInv.skips_inv e st he
          refine ⟨g1, g2, g3, ?_⟩
          intro hsp'
          obtain ⟨g5, g6⟩ := g4 hsp'
          have heB : e ≠ s.i - 1 := by
            intro hc
            subst hc
            rw [hp'] at hsp'
            exact hpc (Option.some_injective _ hsp')
          refine ⟨by omega, ?_⟩
          intro k hk1 hk2
          show updF s.mismatches (s.i - 1) false k = false
          by_cases hki : k = s.i - 1
          · subst hki
            rw [updF_self]
          · rw [updF_ne _ _ hki]
            exact g6 k hk1 hk2

theorem reachable_inv {t : List Char} {s : State} (h : Reachable t s) : Inv t s := by
  induction h with
  | init => exact inv_init t
  | chr _ hlt hstep ih => exact inv_char ih hlt hstep
  | bksp _ hstep ih => exact inv_bksp ih hstep

/-! ### Totality and field preservation -/

theorem handle_char_total {s : State} (c : Char) (h : s.i < s.text.length) :
    ∃ s', handle_char s c = some s' := by
  have htc : str_index s.text s.i = some (s.text.get ⟨s.i, h⟩) :=
    List.get?_eq_get h
  set tc := s.text.get ⟨s.i, h⟩
  by_cases hskip : c = ' ' ∧ tc ≠ ' '
  · exact ⟨_, handle_char_skip htc hskip.1 hskip.2⟩
  · cases hext : s.extensions s.i with
    | some v => exact ⟨_, handle_char_extend htc hskip hext⟩
    | none =>
      by_cases heq : tc = c
      · exact ⟨_, handle_char_match htc hskip hext heq⟩
      · by_cases hsp : tc = ' '
        · exact ⟨_, handle_char_extstart htc hskip hext heq hsp⟩
        · exact ⟨_, handle_char_mismatch htc hskip hext heq hsp⟩

theorem handle_char_out_of_bounds {s : State} (c : Char) (h : s.text.length ≤ s.i) :
    handle_char s c = none :=
  handle_char_panic (List.get?_eq_none.mpr h)

theorem handle_backspace_total {s : State} (h : s.i ≤ s.text.length) :
    ∃ s', handle_backspace s = some s' := by
  cases hext : s.extensions s.i with
  | some v =>
    by_cases hdrop : v.dropLast = []
    · exact ⟨_, handle_backspace_pop_drop hext hdrop⟩
    · exact ⟨_, handle_backspace_pop_keep hext hdrop⟩
  | none =>
    by_cases h0 : s.i = 0
    · exact ⟨_, handle_backspace_zero hext h0⟩
    · have hlen : s.i - 1 < s.text.length := by omega
      have hp : str_index s.text (s.i - 1) = some (s.text.get ⟨s.i - 1, hlen⟩) :=
        List.get?_eq_get hlen
      set pc := s.text.get ⟨s.i - 1, hlen⟩
      by_cases hpc : pc = ' '
      · cases hsk : s.skips (s.i - 1) with
        | some st => exact ⟨_, handle_backspace_skipundo hext h0 (by rw [hp, hpc]) hsk⟩
        | none => exact ⟨_, handle_backspace_noskip hext h0 (by rw [hp, hpc]) hsk⟩
      · exact ⟨_, handle_backspace_dec hext h0 hp hpc⟩

theorem handle_char_fields {s s' : State} {c : Char}
    (h : handle_char s c = some s') : s'.started = true ∧ s'.text = s.text := by
  by_cases hlen : s.i < s.text.length
  · have htc : str_index s.text s.i = some (s.text.get ⟨s.i, hlen⟩) :=
      List.get?_eq_get hlen
    set tc := s.text.get ⟨s.i, hlen⟩
    by_cases hskip : c = ' ' ∧ tc ≠ ' '
    · rw [handle_char_skip htc hskip.1 hskip.2] at h
      injection h with h
      subst h
      exact ⟨rfl, rfl⟩
    · cases hext : s.extensions s.i with
      | some v =>
        rw [handle_char_extend htc hskip hext] at h
        injection h with h
        subst h
        exact ⟨rfl, rfl⟩
      | none =>
        by_cases heq : tc = c
        · rw [handle_char_match htc hskip hext heq] at h
          injection h with h
          subst h
          exact ⟨rfl, rfl⟩
        · by_cases hsp : tc = ' '
          · rw [handle_char_extstart htc hskip hext heq hsp] at h
            injection h with h
            subst h
            exact ⟨rfl, rfl⟩
          · rw [handle_char_mismatch htc hskip hext heq hsp] at h
            injection h with h
            subst h
            exact ⟨rfl, rfl⟩
  · rw [handle_char_out_of_bounds c (by omega)] at h
    cases h

theorem handle_backspace_fields {s s' : State}
    (h : handle_backspace s = some s') :
    s'.started = s.started ∧ s'.text = s.text ∧
    (∀ e st, s.text.get? e ≠ some ' ' → s.skips e = some st → s'.skips e = some st) := by
  cases hext : s.extensions s.i with
  | some v =>
    by_cases hdrop : v.dropLast = []
    · rw [handle_backspace_pop_drop hext hdrop] at h
      injection h with h
      subst h
      exact ⟨rfl, rfl, fun e st _ hsk => hsk⟩
    · rw [handle_backspace_pop_keep hext hdrop] at h
      injection h with h
      subst h
      exact ⟨rfl, rfl, fun e st _ hsk => hsk⟩
  | none =>
    by_cases h0 : s.i = 0
    · rw [handle_backspace_zero hext h0] at h
      injection h with h
      subst h
      exact ⟨rfl, rfl, fun e st _ hsk => hsk⟩
    · cases hidx : str_index s.text (s.i - 1) with
      | none =>
        rw [handle_backspace_panic hext h0 hidx] at h
        cases h
      | some pc =>
        by_cases hpc : pc = ' '
        · subst hpc
          cases hsk : s.skips (s.i - 1) with
          | some st =>
            rw [handle_backspace_skipundo hext h0 hidx hsk] at h
            injection h with h
            subst h
            refine ⟨rfl, rfl, fun e st' hne hsk' => ?_⟩
            have heB : e ≠ s.i - 1 := by
              intro hc
              subst hc
              exact hne hidx
            show updF s.skips (s.i - 1) none e = some st'
            rw [updF_ne _ _ heB]
            exact hsk'
          | none =>
            rw [handle_backspace_noskip hext h0 hidx hsk] at h
            injection h with h
            subst h
            exact ⟨rfl, rfl, fun e st _ hsk => hsk⟩
        · rw [handle_backspace_dec hext h0 hidx hpc] at h
          injection h with h
          subst h
          exact ⟨rfl, rfl, fun e st _ hsk => hsk⟩

/-! ### Corollaries of the invariant -/

theorem inv_ext_none {t : List Char} {s : State} (hInv : Inv t s) {m : Nat}
    (hm : m ≠ s.i) : s.extensions m = none := by
  cases hek : s.extensions m with
  | none => rfl
  | some v => exact absurd (hInv.ext_inv m v hek).1 hm

theorem inv_mism_false {t : List Char} {s : State} (hInv : Inv t s) {m : Nat}
    (hm : s.i ≤ m) : s.mismatches m = false := by
  cases hmk : s.mismatches m with
  | false => rfl
  | true => exact absurd (hInv.mism_lt m hmk) (by omega)

theorem inv_skips_space_none {t : List Char} {s : State} (hInv : Inv t s) {m : Nat}
    (hm : s.i ≤ m) (hsp : s.text.get? m = some ' ') : s.skips m = none := by
  cases hsk : s.skips m with
  | none => rfl
  | some st => exact absurd ((hInv.skips_inv m st hsk).2.2.2 hsp).1 (by omega)

/-! ### Claims -/

/-- C2 (corrected): keystroke totality.  `handle_char` has a defined result
(no panic) for every character and every overlay content whenever the cursor
is strictly below the text length, and `handle_backspace` whenever the cursor
is at most the text length.  (The original claim also admitted cursor = length
for `handle_char`; the counterexample shows that case panics.) -/
theorem keystroke_totality :
    (∀ (s : State) (c : Char), s.i < s.text.length → ∃ s', handle_char s c = some s') ∧
    (∀ s : State, s.i ≤ s.text.length → ∃ s', handle_backspace s = some s') :=
  ⟨fun _ c h => handle_char_total c h, fun _ h => handle_backspace_total h⟩

/-- C2 counterexample: with text `"a"` and cursor 1 (allowed by the claimed
cursor invariant `0 ≤ i ≤ len`, and reachable by typing the full text),
`handle_char` has no defined result: the Rust code panics with an
index-out-of-bounds in `str_index` (`main.rs` line 16). -/
theorem keystroke_totality_cex :
    handle_char { State.new ['a'] with i := 1 } 'x' = none ∧
    (1 : Nat) ≤ (State.new ['a']).text.length :=
  ⟨rfl, by decide⟩

/-- Witness for C2 at concrete states. -/
theorem keystroke_totality_witness :
    (∃ s', handle_char (State.new ['a','b']) 'q' = some s') ∧
    (∃ s', handle_backspace { State.new ['a'] with i := 1 } = some s') :=
  ⟨keystroke_totality.1 (State.new ['a','b']) 'q' (by decide),
   keystroke_totality.2 { State.new ['a'] with i := 1 } (by decide)⟩

/-- C3 (corrected): for every state with positive cursor (within bounds) and
no extension entry at the cursor: if the target character immediately before
the cursor is NOT a space, `handle_backspace` decrements the cursor by one and
removes any mismatch entry at the new cursor index; but if that character is a
space with no recorded skip entry, `handle_backspace` leaves the state
unchanged (it does not decrement, contrary to the original claim). -/
theorem backspace_decrement :
    ∀ (s : State) (pc : Char), 0 < s.i → s.extensions s.i = none →
      str_index s.text (s.i - 1) = some pc →
      (pc ≠ ' ' →
        handle_backspace s =
          some { s with i := s.i - 1
                        mismatches := updF s.mismatches (s.i - 1) false }) ∧
      (pc = ' ' → s.skips (s.i - 1) = none → handle_backspace s = some s) := by
  intro s pc h0 hext hp
  constructor
  · intro hpc
    exact handle_backspace_dec hext (by omega) hp hpc
  · intro hpc hsk
    exact handle_backspace_noskip hext (by omega) (by rw [hp, hpc]) hsk

/-- C3 counterexample: text `"a "`, cursor 2 (reached by typing the text),
no extension at the cursor, no skip recorded at index 1 — so the claim's
hypothesis "not (space before cursor and skip recorded)" holds — yet
`handle_backspace` leaves the cursor at 2 instead of decrementing it to 1. -/
theorem backspace_decrement_cex :
    0 < ({ State.new ['a',' '] with i := 2 } : State).i ∧
    ({ State.new ['a',' '] with i := 2 } : State).extensions 2 = none ∧
    ¬(str_index ['a',' '] 1 = some ' ' ∧
        (({ State.new ['a',' '] with i := 2 } : State).skips 1).isSome = true) ∧
    (handle_backspace { State.new ['a',' '] with i := 2 }).map State.i = some 2 ∧
    ¬((handle_backspace { State.new ['a',' '] with i := 2 }).map State.i = some 1) := by
  decide

/-- Witness for C3 at a concrete state (non-space before the cursor). -/
theorem backspace_decrement_witness :
    handle_backspace { State.new ['a','b'] with i := 2 } =
      some { { State.new ['a','b'] with i := 2 } with
             i := ({ State.new ['a','b'] with i := 2 } : State).i - 1
             mismatches :=
               updF ({ State.new ['a','b'] with i := 2 } : State).mismatches
                 (({ State.new ['a','b'] with i := 2 } : State).i - 1) false } :=
  (backspace_decrement { State.new ['a','b'] with i := 2 } 'b'
      (by decide) rfl rfl).1 (by decide)

/-- C8 (confirmed): the cursor invariant `0 ≤ i ≤ len(text)` is preserved by
every sequence of `handle_char` (invoked only while `i < len`, as in the main
loop) and `handle_backspace` calls from the constructed state. -/
theorem cursor_in_bounds {t : List Char} {s : State} (h : Reachable t s) :
    0 ≤ s.i ∧ s.i ≤ t.length :=
  ⟨Nat.zero_le _, (reachable_inv h).i_le⟩

/-- Witness for C8 at a concrete reachable state (after typing `'a'`). -/
theorem cursor_in_bounds_witness :
    0 ≤ (⟨true, ['a','b'], 1, fun _ => false, fun _ => none, fun _ => none⟩ : State).i ∧
    (⟨true, ['a','b'], 1, fun _ => false, fun _ => none, fun _ => none⟩ : State).i ≤
      (['a','b'] : List Char).length :=
  cursor_in_bounds
    (@Reachable.chr ['a','b'] (State.new ['a','b'])
      ⟨true, ['a','b'], 1, fun _ => false, fun _ => none, fun _ => none⟩ 'a'
      Reachable.init (by decide) rfl)

/-- C9 (confirmed): in every reachable state, every key of `extensions` maps
to a non-empty character sequence and its target character is a space; in
particular no empty extension entry is ever observable. -/
theorem extensions_wellformed {t : List Char} {s : State} (h : Reachable t s) :
    ∀ k v, s.extensions k = some v → v ≠ [] ∧ s.text.get? k = some ' ' := by
  intro k v hk
  obtain ⟨_, h2, h3⟩ := (reachable_inv h).ext_inv k v hk
  exact ⟨h2, h3⟩

/-- Witness for C9 at a concrete reachable state (text `" a"`, typed `'x'`). -/
theorem extensions_wellformed_witness :
    (['x'] : List Char) ≠ [] ∧
    (⟨true, [' ','a'], 0, fun _ => false,
       updF (fun _ => none) 0 (some ['x']), fun _ => none⟩ : State).text.get? 0 =
      some ' ' :=
  extensions_wellformed
    (@Reachable.chr [' ','a'] (State.new [' ','a'])
      ⟨true, [' ','a'], 0, fun _ => false,
        updF (fun _ => none) 0 (some ['x']), fun _ => none⟩ 'x'
      Reachable.init (by decide) rfl) 0 ['x'] rfl

/-- Typing exactly the remaining suffix of the text, starting from a clean
state with the clock running, advances the cursor to the end and leaves the
overlays empty. -/
theorem runChars_suffix (t : List Char) :
    ∀ (cs : List Char) (k : Nat), k ≤ t.length → t.drop k = cs →
      runChars ⟨true, t, k, fun _ => false, fun _ => none, fun _ => none⟩ cs =
        some ⟨true, t, t.length, fun _ => false, fun _ => none, fun _ => none⟩ := by
  intro cs
  induction cs with
  | nil =>
    intro k hk hdrop
    have hlen : t.length ≤ k := List.drop_eq_nil_iff.mp hdrop
    have hke : k = t.length := by omega
    subst hke
    rfl
  | cons c rest ih =>
    intro k hk hdrop
    have hget : t.get? k = some c := by
      have h0 : (t.drop k).get? 0 = some c := by rw [hdrop]; rfl
      have hgd : (t.drop k).get? 0 = t.get? (k + 0) := by
        simp [List.get?_eq_getElem?, List.getElem?_drop]
      rw [hgd] at h0
      simpa using h0
    have hklt : k < t.length := (List.get?_eq_some.mp hget).1
    have hrest : t.drop (k + 1) = rest := by
      rw [← List.tail_drop, hdrop]
      rfl
    have hstep :
        handle_char
            (⟨true, t, k, fun _ => false, fun _ => none, fun _ => none⟩ : State) c =
          some ⟨true, t, k + 1, fun _ => false, fun _ => none, fun _ => none⟩ :=
      handle_char_match hget (fun h => h.2 h.1) rfl rfl
    simp only [runChars]
    rw [hstep]
    exact ih (k + 1) (by omega) hrest

/-- C4 (confirmed): feeding `handle_char` the target's characters in order,
one per call, from the constructed state yields a final state whose cursor
equals the text length, whose mismatches, extensions and skips are all empty,
and for which `should_exit` (is_complete) returns true. -/
theorem perfect_typing_completes (t : List Char) (hne : t ≠ []) :
    ∃ sf, runChars (State.new t) t = some sf ∧ sf.i = t.length ∧
      (∀ k, sf.mismatches k = false) ∧ (∀ k, sf.extensions k = none) ∧
      (∀ k, sf.skips k = none) ∧ should_exit sf = true := by
  obtain ⟨c, rest, rfl⟩ := List.exists_cons_of_ne_nil hne
  refine ⟨⟨true, c :: rest, (c :: rest).length,
      fun _ => false, fun _ => none, fun _ => none⟩,
    ?_, rfl, fun _ => rfl, fun _ => rfl, fun _ => rfl, ?_⟩
  · have hget : (c :: rest).get? 0 = some c := rfl
    have hstep : handle_char (State.new (c :: rest)) c =
        some ⟨true, c :: rest, 1, fun _ => false, fun _ => none, fun _ => none⟩ :=
      handle_char_match hget (fun h => h.2 h.1) rfl rfl
    simp only [runChars]
    rw [hstep]
    exact runChars_suffix (c :: rest) rest 1 (by simp) rfl
  · simp [should_exit]

/-- Witness for C4 on the concrete text `"hi"`. -/
theorem perfect_typing_completes_witness :
    (['h','i'] : List Char) ≠ [] ∧
    ∃ sf, runChars (State.new ['h','i']) ['h','i'] = some sf ∧
      sf.i = (['h','i'] : List Char).length ∧
      (∀ k, sf.mismatches k = false) ∧ (∀ k, sf.extensions k = none) ∧
      (∀ k, sf.skips k = none) ∧ should_exit sf = true :=
  ⟨by decide, perfect_typing_completes ['h','i'] (by decide)⟩

/-- C5 (corrected): pressing space while inside a word (target character at
the cursor is not a space) records a skip entry keyed by the boundary index
(the next space at or after the cursor, or the last index if none exists)
with value the pre-skip cursor — overwriting any previous entry at that
boundary rather than always adding a new one — leaves all other skip keys,
the mismatches and the extensions unchanged, and advances the cursor to one
past the boundary. -/
theorem space_skip_behavior :
    ∀ (s : State) (tc : Char), str_index s.text s.i = some tc → tc ≠ ' ' →
      ∃ B s', B = findBoundary s.text s.i ∧ handle_char s ' ' = some s' ∧
        s'.i = B + 1 ∧ s'.skips = updF s.skips B (some s.i) ∧
        s'.mismatches = s.mismatches ∧ s'.extensions = s.extensions ∧
        s.i ≤ B ∧ B < s.text.length ∧
        (∀ k, k < B → s.i ≤ k → s.text.get? k ≠ some ' ') ∧
        (s.text.get? B = some ' ' ∨ B = s.text.length - 1) := by
  intro s tc htc hne
  have htc' : s.text.get? s.i = some tc := htc
  have hlen : s.i < s.text.length := (List.get?_eq_some.mp htc').1
  exact ⟨findBoundary s.text s.i, _, rfl, handle_char_skip htc rfl hne, rfl, rfl,
    rfl, rfl, findBoundary_ge s.text s.i, findBoundary_lt s.text hlen,
    fun k h1 h2 => findBoundary_no_space s.text h2 h1,
    findBoundary_space_or_last s.text hlen⟩

/-- C5 counterexample: in the reachable pre-state for text `"abc"` obtained by
pressing space, backspace, backspace (cursor 1, stale skip entry `2 ↦ 0`),
pressing space inside the word overwrites the stale entry instead of adding a
new one: the skip count stays 1 where "adds exactly one new entry" demands 2,
and the old entry's value 0 is replaced by 1. -/
theorem space_skip_cex :
    (runOps (State.new ['a','b','c']) [Op.chr ' ', Op.bksp, Op.bksp]).map
        (fun s => (s.i, s.skips 2, skipCount s, str_index s.text s.i)) =
      some (1, some 0, 1, some 'b') ∧
    (runOps (State.new ['a','b','c']) [Op.chr ' ', Op.bksp, Op.bksp, Op.chr ' ']).map
        (fun s => (s.i, s.skips 2, skipCount s)) = some (3, some 1, 1) ∧
    ¬((runOps (State.new ['a','b','c']) [Op.chr ' ', Op.bksp, Op.bksp, Op.chr ' ']).map
        skipCount = some 2) := by
  decide

/-- Witness for C5 on text `"a b"` at the fresh state. -/
theorem space_skip_behavior_witness :
    ∃ B s', B = findBoundary (State.new ['a',' ','b']).text (State.new ['a',' ','b']).i ∧
      handle_char (State.new ['a',' ','b']) ' ' = some s' ∧
      s'.i = B + 1 ∧
      s'.skips = updF (State.new ['a',' ','b']).skips B (some (State.new ['a',' ','b']).i) ∧
      s'.mismatches = (State.new ['a',' ','b']).mismatches ∧
      s'.extensions = (State.new ['a',' ','b']).extensions ∧
      (State.new ['a',' ','b']).i ≤ B ∧ B < (State.new ['a',' ','b']).text.length ∧
      (∀ k, k < B → (State.new ['a',' ','b']).i ≤ k →
        (State.new ['a',' ','b']).text.get? k ≠ some ' ') ∧
      ((State.new ['a',' ','b']).text.get? B = some ' ' ∨
        B = (State.new ['a',' ','b']).text.length - 1) :=
  space_skip_behavior (State.new ['a',' ','b']) 'a' rfl (by decide)

/-- C6 (corrected): typing a character different from the target character at
the cursor never decreases the cursor; it records the pre-call cursor in
`mismatches` exactly when no extension is in progress at the cursor, the typed
character is not a space (that triggers a skip instead) and the target
character is not a space (that starts an extension instead); in all other
cases `mismatches` is unchanged. -/
theorem wrong_char_behavior :
    ∀ (s : State) (c tc : Char), str_index s.text s.i = some tc → c ≠ tc →
      ∃ s', handle_char s c = some s' ∧ s.i ≤ s'.i ∧
        s'.mismatches =
          (if s.extensions s.i = none ∧ c ≠ ' ' ∧ tc ≠ ' '
            then updF s.mismatches s.i true else s.mismatches) := by
  intro s c tc htc hne
  by_cases hskip : c = ' ' ∧ tc ≠ ' '
  · refine ⟨_, handle_char_skip htc hskip.1 hskip.2, ?_, ?_⟩
    · show s.i ≤ findBoundary s.text s.i + 1
      have := findBoundary_ge s.text s.i
      omega
    · show s.mismatches = _
      rw [if_neg]
      intro h
      exact h.2.1 hskip.1
  · cases hext : s.extensions s.i with
    | some v =>
      refine ⟨_, handle_char_extend htc hskip hext, le_refl _, ?_⟩
      show s.mismatches = _
      rw [if_neg]
      intro h
      exact Option.noConfusion h.1
    | none =>
      have hqe : tc ≠ c := fun h => hne h.symm
      by_cases hsp : tc = ' '
      · refine ⟨_, handle_char_extstart htc hskip hext hqe hsp, le_refl _, ?_⟩
        show s.mismatches = _
        rw [if_neg]
        intro h
        exact h.2.2 hsp
      · have hc : c ≠ ' ' := fun h => hskip ⟨h, hsp⟩
        refine ⟨_, handle_char_mismatch htc hskip hext hqe hsp, ?_, ?_⟩
        · show s.i ≤ s.i + 1
          omega
        · show updF s.mismatches s.i true = _
          rw [if_pos ⟨rfl, hc, hsp⟩]

/-- C6 counterexample: text `"ab"`, fresh state, typing `' '` (which differs
from the target `'a'`, with no extension in progress at index 0) triggers the
skip branch: `mismatches` stays empty instead of gaining exactly one index. -/
theorem wrong_char_cex :
    str_index (State.new ['a','b']).text (State.new ['a','b']).i = some 'a' ∧
    (' ' : Char) ≠ 'a' ∧
    (State.new ['a','b']).extensions (State.new ['a','b']).i = none ∧
    (handle_char (State.new ['a','b']) ' ').map mismatchCount = some 0 ∧
    ¬((handle_char (State.new ['a','b']) ' ').map mismatchCount = some 1) := by
  decide

/-- Witness for C6 on text `"ab"`, typing `'z'` against target `'a'`. -/
theorem wrong_char_behavior_witness :
    ∃ s', handle_char (State.new ['a','b']) 'z' = some s' ∧
      (State.new ['a','b']).i ≤ s'.i ∧
      s'.mismatches =
        (if (State.new ['a','b']).extensions (State.new ['a','b']).i = none ∧
              ('z' : Char) ≠ ' ' ∧ ('a' : Char) ≠ ' '
          then updF (State.new ['a','b']).mismatches (State.new ['a','b']).i true
          else (State.new ['a','b']).mismatches) :=
  wrong_char_behavior (State.new ['a','b']) 'z' 'a' rfl (by decide)

/-- After running a keystroke sequence, the clock has been started iff it
already was or some printable character was handled. -/
theorem runOps_started :
    ∀ (ops : List Op) (s s' : State), runOps s ops = some s' →
      (s'.started = true ↔ s.started = true ∨ ∃ c, Op.chr c ∈ ops) := by
  intro ops
  induction ops with
  | nil =>
    intro s s' h
    injection h with h
    subst h
    simp
  | cons op rest ih =>
    intro s s' h
    simp only [runOps] at h
    cases hap : applyOp s op with
    | none => rw [hap] at h; exact Option.noConfusion h
    | some s1 =>
      rw [hap] at h
      have h' : runOps s1 rest = some s' := h
      have hrec := ih s1 s' h'
      cases op with
      | chr c =>
        have hap' : handle_char s c = some s1 := hap
        have hs1 : s1.started = true := (handle_char_fields hap').1
        rw [hrec]
        constructor
        · intro _
          exact Or.inr ⟨c, List.mem_cons_self _ _⟩
        · intro _
          exact Or.inl hs1
      | bksp =>
        have hap' : handle_backspace s = some s1 := hap
        have hs1 : s1.started = s.started := (handle_backspace_fields hap').1
        rw [hrec, hs1]
        constructor
        · rintro (h1 | ⟨c, hc⟩)
          · exact Or.inl h1
          · exact Or.inr ⟨c, List.mem_cons_of_mem _ hc⟩
        · rintro (h1 | ⟨c, hc⟩)
          · exact Or.inl h1
          · rcases List.mem_cons.mp hc with h2 | h2
            · exact Op.noConfusion h2
            · exact Or.inr ⟨c, h2⟩

/-- C7 (confirmed): `get_wpm` returns `none` exactly when no `handle_char`
call has occurred in the session; otherwise it returns the whitespace-word
count of the target text before the cursor, divided by the elapsed seconds
and multiplied by 60 — a non-negative (and, as an exact rational, finite)
value.  The elapsed wall-clock seconds are abstracted as the positive
rational parameter of `get_wpm`. -/
theorem wpm_spec :
    (∀ (s : State) (e : ℚ), get_wpm s e = none ↔ s.started = false) ∧
    (∀ (s : State) (e : ℚ), 0 < e → s.started = true →
      get_wpm s e = some ((wordCount (s.text.take s.i) : ℚ) / e * 60) ∧
      ∀ v, get_wpm s e = some v → 0 ≤ v) ∧
    (∀ (t : List Char) (ops : List Op) (s : State),
      runOps (State.new t) ops = some s →
      (s.started = true ↔ ∃ c, Op.chr c ∈ ops)) := by
  refine ⟨?_, ?_, ?_⟩
  · intro s e
    cases hs : s.started
    · simp [get_wpm, hs]
    · simp [get_wpm, hs]
  · intro s e he hs
    constructor
    · simp [get_wpm, hs]
    · intro v hv
      simp only [get_wpm] at hv
      rw [if_pos hs] at hv
      injection hv with hv
      subst hv
      exact mul_nonneg
        (div_nonneg (Nat.cast_nonneg _) (le_of_lt he)) (by norm_num)
  · intro t ops s h
    rw [runOps_started ops (State.new t) s h]
    simp [State.new]

/-- Witness for C7 at concrete states and a concrete one-keystroke run. -/
theorem wpm_spec_witness :
    (get_wpm (State.new ['h','i']) 1 = none ↔ (State.new ['h','i']).started = false) ∧
    (get_wpm (⟨true, ['h','i'], 2, fun _ => false, fun _ => none, fun _ => none⟩ : State) 2 =
        some ((wordCount ((['h','i'] : List Char).take 2) : ℚ) / 2 * 60) ∧
      ∀ v, get_wpm (⟨true, ['h','i'], 2, fun _ => false, fun _ => none,
          fun _ => none⟩ : State) 2 = some v → 0 ≤ v) ∧
    ((⟨true, ['h'], 1, fun _ => false, fun _ => none, fun _ => none⟩ : State).started = true ↔
      ∃ c, Op.chr c ∈ [Op.chr 'h']) :=
  ⟨wpm_spec.1 (State.new ['h','i']) 1,
   wpm_spec.2.1 ⟨true, ['h','i'], 2, fun _ => false, fun _ => none, fun _ => none⟩ 2
     (by norm_num) rfl,
   wpm_spec.2.2 ['h'] [Op.chr 'h']
     ⟨true, ['h'], 1, fun _ => false, fun _ => none, fun _ => none⟩ rfl⟩

/-- C10 (corrected): in any state with cursor `i < len` in which no space
occurs at or after the cursor and — as in every reachable state — no
extension entry sits at index `len`, `handle_char ' '` records a skip keyed
by the last text index (which holds a non-space character) and sets the
cursor to `len`; one subsequent `handle_backspace` decrements the cursor by
one and leaves that skip entry in the map.  Moreover, in any state, a skip
entry whose end index holds a non-space character is never removed by
`handle_backspace`. -/
theorem nonspace_skip_persistence :
    (∀ s : State, s.i < s.text.length →
      (∀ k, k < s.text.length → s.i ≤ k → s.text.get? k ≠ some ' ') →
      s.extensions s.text.length = none →
      ∃ s₁ s₂, handle_char s ' ' = some s₁ ∧
        s₁.i = s.text.length ∧
        s₁.skips = updF s.skips (s.text.length - 1) (some s.i) ∧
        s.text.get? (s.text.length - 1) ≠ some ' ' ∧
        handle_backspace s₁ = some s₂ ∧
        s₂.i = s.text.length - 1 ∧ s₂.skips = s₁.skips ∧
        s₂.skips (s.text.length - 1) = some s.i) ∧
    (∀ (r r' : State) (e st : Nat), r.text.get? e ≠ some ' ' →
      r.skips e = some st → handle_backspace r = some r' →
      r'.skips e = some st) := by
  constructor
  · intro s hlen hns hextlen
    have htc : str_index s.text s.i = some (s.text.get ⟨s.i, hlen⟩) :=
      List.get?_eq_get hlen
    set tc := s.text.get ⟨s.i, hlen⟩ with htcdef
    have htc' : s.text.get? s.i = some tc := htc
    have htcne : tc ≠ ' ' := by
      intro hc
      exact hns s.i hlen (le_refl _) (by rw [htc', hc])
    have hB : findBoundary s.text s.i = s.text.length - 1 :=
      findBoundary_no_space_eq s.text hlen hns
    have hBlt : findBoundary s.text s.i < s.text.length := findBoundary_lt s.text hlen
    have hsiB : s.i ≤ findBoundary s.text s.i := findBoundary_ge s.text s.i
    have hpcne : s.text.get ⟨findBoundary s.text s.i, hBlt⟩ ≠ ' ' := by
      intro hc
      exact hns (findBoundary s.text s.i) hBlt hsiB (by rw [List.get?_eq_get hBlt, hc])
    refine ⟨_, ⟨true, s.text, findBoundary s.text s.i,
        updF s.mismatches (findBoundary s.text s.i) false, s.extensions,
        updF s.skips (findBoundary s.text s.i) (some s.i)⟩,
      handle_char_skip htc rfl htcne, ?_, ?_, ?_, ?_, ?_, ?_, ?_⟩
    · show findBoundary s.text s.i + 1 = s.text.length
      omega
    · show updF s.skips (findBoundary s.text s.i) (some s.i) =
        updF s.skips (s.text.length - 1) (some s.i)
      rw [hB]
    · exact hns (s.text.length - 1) (by omega) (by omega)
    · exact handle_backspace_dec
        (show s.extensions (findBoundary s.text s.i + 1) = none 
          from by rw [show findBoundary s.text s.i + 1 = s.text.length from by omega]
                  exact hextlen)
        (show findBoundary s.text s.i + 1 ≠ 0 from by omega)
        (List.get?_eq_get hBlt) hpcne
    · show findBoundary s.text s.i = s.text.length - 1
      exact hB
    · rfl
    · show updF s.skips (findBoundary s.text s.i) (some s.i) (s.text.length - 1) = some s.i
      rw [← hB]
      exact updF_self s.skips (findBoundary s.text s.i) (some s.i)
  · intro r r' e st hne hsk h
    exact (handle_backspace_fields h).2.2 e st hne hsk

/-- C10 counterexample: the claim quantifies over arbitrary states and
overlay contents; in a state carrying an extension entry at index `len`
(text `"ab"`, cursor 0, extension `2 ↦ "x"`), the backspace after the skip
pops that extension instead of decrementing the cursor: the cursor stays at
2 and never reaches `len - 1 = 1` as claimed. -/
theorem nonspace_skip_cex :
    (⟨true, ['a','b'], 0, fun _ => false, updF (fun _ => none) 2 (some ['x']),
        fun _ => none⟩ : State).i <
      (⟨true, ['a','b'], 0, fun _ => false, updF (fun _ => none) 2 (some ['x']),
        fun _ => none⟩ : State).text.length ∧
    (∀ k, k < 2 → (0 : Nat) ≤ k → (['a','b'] : List Char).get? k ≠ some ' ') ∧
    ((handle_char (⟨true, ['a','b'], 0, fun _ => false,
        updF (fun _ => none) 2 (some ['x']), fun _ => none⟩ : State) ' ').bind
      handle_backspace).map State.i = some 2 ∧
    (2 : Nat) ≠ (['a','b'] : List Char).length - 1 := by
  decide

/-- Witness for C10: the skip/backspace pair on text `"ab"` from the fresh
state, and skip persistence under one backspace at a concrete state. -/
theorem nonspace_skip_persistence_witness :
    (∃ s₁ s₂, handle_char (State.new ['a','b']) ' ' = some s₁ ∧
      s₁.i = (State.new ['a','b']).text.length ∧
      s₁.skips = updF (State.new ['a','b']).skips
        ((State.new ['a','b']).text.length - 1) (some (State.new ['a','b']).i) ∧
      (State.new ['a','b']).text.get? ((State.new ['a','b']).text.length - 1) ≠ some ' ' ∧
      handle_backspace s₁ = some s₂ ∧
      s₂.i = (State.new ['a','b']).text.length - 1 ∧ s₂.skips = s₁.skips ∧
      s₂.skips ((State.new ['a','b']).text.length - 1) = some (State.new ['a','b']).i) ∧
    (⟨true, ['a','b'], 1, updF (fun _ => false) 1 false, fun _ => none,
        updF (fun _ => none) 1 (some 0)⟩ : State).skips 1 = some 0 :=
  ⟨nonspace_skip_persistence.1 (State.new ['a','b']) (by decide) (by decide) rfl,
   nonspace_skip_persistence.2
     ⟨true, ['a','b'], 2, fun _ => false, fun _ => none, updF (fun _ => none) 1 (some 0)⟩
     ⟨true, ['a','b'], 1, updF (fun _ => false) 1 false, fun _ => none,
        updF (fun _ => none) 1 (some 0)⟩ 1 0 (by decide) rfl rfl⟩

/-- C1 (corrected): backspace is a left inverse of the immediately preceding
`handle_char` call — cursor, mismatches, extensions and skips return to their
pre-call values — in every reachable state and for every branch except the
two cases the counterexample forces: (a) a space typed inside a word when no
space remains in the target at or after the cursor (the skip boundary then
holds a non-space character and the following backspace merely decrements the
cursor, leaving the skip entry behind), and (b) a correctly typed space with
no extension pending at the cursor (the following backspace is a no-op,
leaving the cursor advanced). -/
theorem backspace_left_inverse :
    ∀ (t : List Char) (s : State) (c tc : Char), Reachable t s →
      str_index s.text s.i = some tc →
      ¬(c = ' ' ∧ tc ≠ ' ' ∧
          ∀ k, k < s.text.length → s.i ≤ k → s.text.get? k ≠ some ' ') →
      ¬(c = ' ' ∧ tc = ' ' ∧ s.extensions s.i = none) →
      ∃ s₁ s₂, handle_char s c = some s₁ ∧ handle_backspace s₁ = some s₂ ∧
        s₂.i = s.i ∧ s₂.mismatches = s.mismatches ∧
        s₂.extensions = s.extensions ∧ s₂.skips = s.skips := by
  intro t s c tc hreach htc hx1 hx2
  have hInv := reachable_inv hreach
  have htc' : s.text.get? s.i = some tc := htc
  have hlen : s.i < s.text.length := (List.get?_eq_some.mp htc').1
  by_cases hskip : c = ' ' ∧ tc ≠ ' '
  · -- skip branch: by the first exclusion, a space exists at or after the cursor
    have hsp : ∃ k, k < s.text.length ∧ s.i ≤ k ∧ s.text.get? k = some ' ' := by
      by_contra hc
      push_neg at hc
      exact hx1 ⟨hskip.1, hskip.2, fun k h1 h2 => hc k h1 h2⟩
    obtain ⟨k, hk1, hk2, hk3⟩ := hsp
    have hBsp : s.text.get? (findBoundary s.text s.i) = some ' ' :=
      findBoundary_space s.text hlen hk2 hk1 hk3
    have hBge := findBoundary_ge s.text s.i
    refine ⟨_, ⟨true, s.text, s.i, s.mismatches, s.extensions,
        updF (updF s.skips (findBoundary s.text s.i) (some s.i))
          (findBoundary s.text s.i) none⟩,
      handle_char_skip htc hskip.1 hskip.2, ?_, rfl, rfl, rfl, ?_⟩
    · exact handle_backspace_skipundo
        (inv_ext_none hInv (show findBoundary s.text s.i + 1 ≠ s.i from by omega))
        (show findBoundary s.text s.i + 1 ≠ 0 from by omega)
        hBsp
        (updF_self _ _ _)
    · show updF (updF s.skips (findBoundary s.text s.i) (some s.i))
          (findBoundary s.text s.i) none = s.skips
      rw [updF_updF]
      exact updF_eq_self _ (inv_skips_space_none hInv hBge hBsp)
  · cases hext : s.extensions s.i with
    | some v =>
      -- extension continuation: append then pop restores the entry
      have hvne : v ≠ [] := (hInv.ext_inv s.i v hext).2.1
      have hdrop : (v ++ [c]).dropLast ≠ [] := by
        rw [List.dropLast_concat]
        exact hvne
      refine ⟨_, ⟨true, s.text, s.i, s.mismatches,
          updF (updF s.extensions s.i (some (v ++ [c]))) s.i
            (some ((v ++ [c]).dropLast)), s.skips⟩,
        handle_char_extend htc hskip hext, ?_, rfl, rfl, ?_, rfl⟩
      · exact handle_backspace_pop_keep (updF_self _ _ _) hdrop
      · show updF (updF s.extensions s.i (some (v ++ [c]))) s.i
            (some ((v ++ [c]).dropLast)) = s.extensions
        rw [List.dropLast_concat, updF_updF]
        exact updF_eq_self _ hext
    | none =>
      by_cases heq : tc = c
      · -- match branch; by the second exclusion the matched char is not a space
        have hcsp : c ≠ ' ' := by
          intro hc
          subst hc
          exact hx2 ⟨rfl, heq, hext⟩
        refine ⟨_, ⟨true, s.text, s.i, updF s.mismatches s.i false,
            s.extensions, s.skips⟩,
          handle_char_match htc hskip hext heq, ?_, rfl, ?_, rfl, rfl⟩
        · exact handle_backspace_dec
            (inv_ext_none hInv (show s.i + 1 ≠ s.i from by omega))
            (show s.i + 1 ≠ 0 from by omega)
            htc
            (by rw [heq]; exact hcsp)
        · show updF s.mismatches s.i false = s.mismatches
          exact updF_eq_self _ (inv_mism_false hInv (le_refl _))
      · by_cases hsp2 : tc = ' '
        · -- extension start: create then pop-to-empty removes the entry
          refine ⟨_, ⟨true, s.text, s.i, s.mismatches,
              updF (updF s.extensions s.i (some [c])) s.i none, s.skips⟩,
            handle_char_extstart htc hskip hext heq hsp2, ?_, rfl, rfl, ?_, rfl⟩
          · exact handle_backspace_pop_drop (updF_self _ _ _) rfl
          · show updF (updF s.extensions s.i (some [c])) s.i none = s.extensions
            rw [updF_updF]
            exact updF_eq_self _ hext
        · -- mismatch: record then decrement-and-erase restores the set
          refine ⟨_, ⟨true, s.text, s.i,
              updF (updF s.mismatches s.i true) s.i false, s.extensions, s.skips⟩,
            handle_char_mismatch htc hskip hext heq hsp2, ?_, rfl, ?_, rfl, rfl⟩
          · exact handle_backspace_dec
              (inv_ext_none hInv (show s.i + 1 ≠ s.i from by omega))
              (show s.i + 1 ≠ 0 from by omega)
              htc hsp2
          · show updF (updF s.mismatches s.i true) s.i false = s.mismatches
            rw [updF_updF]
            exact updF_eq_self _ (inv_mism_false hInv (le_refl _))

/-- C1 counterexample: from the reachable initial state for text `"ab"`
(cursor 0, overlays empty), typing `' '` — a skip with no space remaining in
the target — followed by `handle_backspace` leaves the cursor at 1 ≠ 0 and
the skip entry `1 ↦ 0` in the map: the pre-call state is not restored. -/
theorem backspace_left_inverse_cex :
    Reachable ['a','b'] (State.new ['a','b']) ∧
    ((handle_char (State.new ['a','b']) ' ').bind handle_backspace).map
        (fun s => (s.i, s.skips 1)) = some (1, some 0) ∧
    (State.new ['a','b']).i = 0 ∧ (State.new ['a','b']).skips 1 = none ∧
    (1 : Nat) ≠ 0 :=
  ⟨Reachable.init, by decide, rfl, rfl, by decide⟩

/-- Witness for C1: the mismatch branch on text `"ab"` from the initial
state, typing `'x'`. -/
theorem backspace_left_inverse_witness :
    ∃ s₁ s₂, handle_char (State.new ['a','b']) 'x' = some s₁ ∧
      handle_backspace s₁ = some s₂ ∧
      s₂.i = (State.new ['a','b']).i ∧
      s₂.mismatches = (State.new ['a','b']).mismatches ∧
      s₂.extensions = (State.new ['a','b']).extensions ∧
      s₂.skips = (State.new ['a','b']).skips :=
  backspace_left_inverse ['a','b'] (State.new ['a','b']) 'x' 'a' Reachable.init rfl
    (fun h => absurd h.1 (by decide)) (fun h => absurd h.1 (by decide))

end Ttype
